import Mathlib

/-
Verification development for the RAG processor (src/rag_processor.py).

The source program enriches a list of company records (Python dicts) with
AI-generated fields and embeddings, and answers cosine-similarity queries
over the enriched collection.  This file gives a shallow embedding:

* Python dicts become association lists (`Dict`) with Python's
  `get`/`__setitem__`/`update`/`copy` semantics (`Dict.get?`, `Dict.set`,
  `Dict.update`; copies are implicit because the embedding is immutable).
* Python floats become exact rationals.  A cosine-similarity value
  `dot / sqrt (normSq_a * normSq_b)` is represented exactly by a `Score`
  (numerator and radicand); `Score.blt` decides the real-number strict
  order on such values, and `Score.val` maps a `Score` to the real number
  it denotes, which lets theorems speak about genuine cosine similarity.
* The two external OpenAI calls and the orchestrator-level unexpected
  exception are modelled by per-record oracles (`Oracle`): `none` means
  the call raised or its response failed to parse, exactly the cases the
  source catches with `except`.
* The only mutable state of `RAGProcessor` touched by the modelled methods
  is `self.enriched_companies`; `batch_enrich_companies` takes the prior
  value explicitly and returns the new one, and `semantic_search_st`
  threads a `ProcState` to express read-only-ness.
-/

/-- Exact representation of a similarity value `d / Real.sqrt s`.
`semantic_search` stores these where the source stores the float
`similarities[i]`; all comparisons performed on them agree with the
real-number order (see `Score.blt_iff`), so filtering and sorting are
faithful to the source's float comparisons read at real precision. -/
structure Score where
  d : ℚ
  s : ℚ
deriving DecidableEq, Repr

/-- Decides `x < y` where `x, y` denote `x.d / sqrt x.s`, `y.d / sqrt y.s`
(for positive radicands), by sign analysis and cross-multiplied squares. -/
def Score.blt (x y : Score) : Bool :=
  if 0 ≤ x.d then decide (0 < y.d ∧ x.d * x.d * y.s < y.d * y.d * x.s)
  else decide (0 ≤ y.d ∨ (y.d < 0 ∧ y.d * y.d * x.s < x.d * x.d * y.s))

/-- The real number denoted by a `Score`. -/
noncomputable def Score.val (x : Score) : ℝ :=
  (x.d : ℝ) / Real.sqrt (x.s : ℝ)

/-- Dot product of two vectors, as computed by sklearn's cosine kernel. -/
def dot (a b : List ℚ) : ℚ :=
  (List.zipWith (fun x y => x * y) a b).sum

/-- Squared Euclidean norm. -/
def normSq (a : List ℚ) : ℚ := dot a a

/-- The cosine similarity `sklearn.metrics.pairwise.cosine_similarity`
computes for one pair of rows, as an exact `Score`.  Zero-norm vectors are
normalised to 1 by sklearn, yielding similarity 0. -/
def simScore (a b : List ℚ) : Score :=
  if normSq a = 0 ∨ normSq b = 0 then ⟨0, 1⟩
  else ⟨dot a b, normSq a * normSq b⟩

/-- Cosine similarity as a real number: `(a·b)/(|a||b|)`, with the
convention that it is 0 when either vector has zero norm. -/
noncomputable def cosineSim (a b : List ℚ) : ℝ :=
  if normSq a = 0 ∨ normSq b = 0 then 0
  else (dot a b : ℝ) / (Real.sqrt ((normSq a : ℚ) : ℝ) * Real.sqrt ((normSq b : ℚ) : ℝ))

/-- Values stored in a record: the record fields the pipeline reads or
writes are strings, lists of strings (tag sequences), embedding vectors,
and similarity scores. -/
inductive Value where
  | str (s : String)
  | list (l : List String)
  | vec (v : List ℚ)
  | score (x : Score)
deriving DecidableEq, Repr

/-- A Python dict with string keys, as an association list in insertion
order (keys are unique when built with `Dict.set`/`Dict.update`). -/
abbrev Dict := List (String × Value)

/-- Python `d.get(k)` / `d[k]`: the value at the first occurrence of `k`. -/
def Dict.get? (d : Dict) (k : String) : Option Value :=
  (List.find? (fun p => p.1 == k) d).map (fun p => p.2)

/-- Python `d[k] = v`: replace the binding of `k` in place, else append. -/
def Dict.set : Dict → String → Value → Dict
  | [], k, v => [(k, v)]
  | (k0, v0) :: rest, k, v =>
      if k0 = k then (k, v) :: rest else (k0, v0) :: Dict.set rest k v

/-- Python `d.update(u)`: set every binding of `u` in order. -/
def Dict.update (d : Dict) (u : Dict) : Dict :=
  List.foldl (fun acc p => Dict.set acc p.1 p.2) d u

/-- Python `str(...)` as used by the source's f-strings, for the value
shapes that actually reach an f-string (strings; joined string lists). -/
def Value.toText : Value → String
  | .str s => s
  | .list l => String.intercalate " " l
  | .vec _ => ""
  | .score _ => ""

/-- `company.get(key, default)` followed by f-string interpolation. -/
def pyGetStr (d : Dict) (k : String) (dflt : String) : String :=
  match Dict.get? d k with
  | some v => Value.toText v
  | none => dflt

/-- `ai_data.get(key, [])` where a list of strings is expected. -/
def pyGetList (d : Dict) (k : String) : List String :=
  match Dict.get? d k with
  | some (Value.list l) => l
  | _ => []

/-- Dimension of `text-embedding-3-small` vectors (source line 136). -/
def embeddingDim : ℕ := 1536

/-- The all-zero fallback embedding `[0.0] * 1536`. -/
def zeroVec : List ℚ := List.replicate embeddingDim 0

/-- The fallback `aiDescription` template (source line 116). -/
def fallbackDescription (company : Dict) : String :=
  "חברה מסוג " ++ pyGetStr company "companyType" "לא ידוע" ++
    " הממוקמת ב" ++ pyGetStr company "region" "לא ידוע"

/-- The fallback `searchableText` f-string (source line 121). -/
def fallbackSearchableText (company : Dict) : String :=
  pyGetStr company "companyName" "" ++ " " ++ pyGetStr company "companyType" "" ++
    " " ++ pyGetStr company "region" ""

/-- The success-path `searchable_text` f-string (source lines 97-107),
built from record and AI fields and then stripped. -/
def successSearchableText (company ai : Dict) : String :=
  (String.intercalate "\n            "
    ["", pyGetStr company "companyName" "", pyGetStr company "companyType" "",
     pyGetStr company "region" "", pyGetStr ai "aiDescription" "",
     String.intercalate " " (pyGetList ai "projectTypes"),
     String.intercalate " " (pyGetList ai "architectSpecialties"),
     pyGetStr ai "collaborationStyle" "", pyGetStr ai "marketTrends" "", ""]).trim

/-- `RAGProcessor.enrich_company_description`.  `response` is the parsed
JSON object from the chat call, or `none` when the call raised or
`json.loads` failed — the single `except` branch of the source. -/
def enrich_company_description (response : Option Dict) (company : Dict) : Dict :=
  match response with
  | some ai_data =>
      Dict.set (Dict.update company ai_data) "searchableText"
        (Value.str (successSearchableText company ai_data))
  | none =>
      Dict.update company
        [("aiDescription", Value.str (fallbackDescription company)),
         ("projectTypes", Value.list []),
         ("architectSpecialties", Value.list []),
         ("complexity", Value.str "medium"),
         ("typicalScale", Value.str "medium"),
         ("searchableText", Value.str (fallbackSearchableText company))]

/-- `RAGProcessor.generate_embedding`.  `response` is the embedding
returned by the API, or `none` when the call raised. -/
def generate_embedding (response : Option (List ℚ)) : List ℚ :=
  match response with
  | some v => v
  | none => List.replicate embeddingDim 0

/-- Per-record external behaviour: the outcome of the chat call, the
outcome of the embedding call, and whether an unexpected error (one not
absorbed by the two inner fallbacks) strikes while processing the record. -/
structure Oracle where
  enrichResult : Option Dict
  embedResult : Option (List ℚ)
  crash : Bool

/-- The body of the inner loop of `batch_enrich_companies` for one record:
the try-branch enriches, embeds and attaches the embedding; the
except-branch appends the original record with a zero embedding. -/
def processOne (o : Oracle) (company : Dict) : Dict :=
  if o.crash then Dict.set company "embedding" (Value.vec zeroVec)
  else
    Dict.set (enrich_company_description o.enrichResult company) "embedding"
      (Value.vec (generate_embedding o.embedResult))

/-- Python `enumerate`, starting at `n`. -/
def enumFrom {α : Type*} : ℕ → List α → List (ℕ × α)
  | _, [] => []
  | n, x :: xs => (n, x) :: enumFrom (n + 1) xs

/-- The batch loop `for i in range(0, len(companies), batch_size)`:
each pass takes a contiguous chunk of `b + 1` records (so `b + 1` is the
batch size; the source's `batch_size` is ≥ 1, a step of 0 being a
`ValueError` in Python) and appends one processed record per element. -/
def batchLoop (env : ℕ → Oracle) (b : ℕ) :
    List (ℕ × Dict) → List Dict → List Dict
  | [], acc => acc
  | x :: xs, acc =>
      batchLoop env b (xs.drop b)
        (acc ++ (x :: xs.take b).map (fun p => processOne (env p.1) p.2))
termination_by l _ => l.length
decreasing_by simp [List.length_drop]; omega

/-- `RAGProcessor.batch_enrich_companies`: processes `companies` in
batches of `batch_size`, appending to the prior `self.enriched_companies`
(`enriched_init`) one record per input; returns the new collection.
`env j` is the external behaviour observed while processing record `j`. -/
def batch_enrich_companies (env : ℕ → Oracle) (companies : List Dict)
    (enriched_init : List Dict) (batch_size : ℕ) : List Dict :=
  batchLoop env (batch_size - 1) (enumFrom 0 companies) enriched_init

/-- `comp['embedding']` read as a vector; `none` when the key is missing
or not a vector, which in the source raises inside the `try` of
`semantic_search` and is caught by its `except`. -/
def embOf? (c : Dict) : Option (List ℚ) :=
  match Dict.get? c "embedding" with
  | some (Value.vec v) => some v
  | _ => none

/-- The condition under which `cosine_similarity([q], company_embeddings)`
succeeds: every record has a vector embedding whose length matches the
query's.  When it fails, the source's `except` returns `[]`. -/
def dimsOk (q : List ℚ) (enriched : List Dict) : Bool :=
  enriched.all (fun c =>
    match embOf? c with
    | some v => v.length == q.length
    | none => false)

/-- One step of the filter loop: keep the record and its similarity when
`similarities[i] > t` (threshold comparison in exact arithmetic). -/
def recordScore? (q : List ℚ) (t : ℚ) (c : Dict) : Option (Dict × Score) :=
  match embOf? c with
  | some v =>
      if Score.blt ⟨t, 1⟩ (simScore q v) then some (c, simScore q v) else none
  | none => none

/-- The `results` list right after the filter loop (records paired with
their scores, in collection order). -/
def scoredPairs (q : List ℚ) (t : ℚ) (enriched : List Dict) : List (Dict × Score) :=
  enriched.filterMap (recordScore? q t)

/-- The filter loop instrumented with `enumerate` indices, used to state
order and stability properties. -/
def scoredIdx (q : List ℚ) (t : ℚ) (enriched : List Dict) :
    List (ℕ × Dict × Score) :=
  (enumFrom 0 enriched).filterMap
    (fun p => (recordScore? q t p.2).map (fun cs => (p.1, cs)))

/-- Insert into a descending-sorted list, after every element that is not
strictly smaller: the placement a stable descending sort gives the
earliest remaining element. -/
def sortInsertKey {α : Type*} (key : α → Score) (x : α) : List α → List α
  | [] => [x]
  | y :: ys =>
      if Score.blt (key x) (key y) then y :: sortInsertKey key x ys
      else x :: y :: ys

/-- Stable descending sort by `key`, the semantics of
`results.sort(key=lambda x: x['similarity_score'], reverse=True)`
(Python's sort is stable, also with `reverse=True`). -/
def sortDescKey {α : Type*} (key : α → Score) : List α → List α
  | [] => []
  | x :: xs => sortInsertKey key x (sortDescKey key xs)

/-- `company_with_score = company.copy(); company_with_score['similarity_score'] = ...`. -/
def attachScore (p : Dict × Score) : Dict :=
  Dict.set p.1 "similarity_score" (Value.score p.2)

/-- The order a stable descending sort realises on distinctly-indexed
elements: either strictly greater similarity, or equal similarity and an
earlier original position. -/
def rankLex {α : Type*} (key : α → Score) (idx : α → ℕ) (a b : α) : Prop :=
  (key b).val < (key a).val ∨ ((key a).val = (key b).val ∧ idx a < idx b)

/-- `RAGProcessor.semantic_search` with the relevance threshold `t` made
a parameter (the source hardcodes `0.3`; see `semantic_search`): early
return on an empty collection, query embedding with fallback, similarity
computation (whose failure modes return `[]` via the `except`), strict
threshold filter, stable descending sort, truncation to `top_k`. -/
def semanticSearchWith (t : ℚ) (qo : Option (List ℚ)) (enriched : List Dict)
    (top_k : ℕ) : List Dict :=
  if enriched.isEmpty then []
  else
    if dimsOk (generate_embedding qo) enriched then
      ((sortDescKey (fun p => p.2)
          (scoredPairs (generate_embedding qo) t enriched)).take top_k).map
        attachScore
    else []

/-- `RAGProcessor.semantic_search` with the source's threshold `0.3`. -/
def semantic_search (qo : Option (List ℚ)) (enriched : List Dict)
    (top_k : ℕ) : List Dict :=
  semanticSearchWith (3 / 10) qo enriched top_k

/-- The mutable state of a `RAGProcessor` the modelled methods touch. -/
structure ProcState where
  companies : List Dict
  enriched_companies : List Dict
deriving DecidableEq

/-- `semantic_search` as a state transformer on the processor state: it
reads `self.enriched_companies` and returns the results; the state it
passes on is the state it received (the method never assigns to `self`,
and scores are attached to `company.copy()` objects only). -/
def semantic_search_st (st : ProcState) (qo : Option (List ℚ)) (top_k : ℕ) :
    List Dict × ProcState :=
  (semantic_search qo st.enriched_companies top_k, st)

/-- A vector all of whose entries are zero. -/
def allZero (v : List ℚ) : Prop := ∀ x ∈ v, x = 0

/-! ### Dictionary lemmas -/

theorem Dict.get?_set_self (d : Dict) (k : String) (v : Value) :
    Dict.get? (Dict.set d k v) k = some v := by
  induction d with
  | nil => simp [Dict.set, Dict.get?]
  | cons p rest ih =>
      obtain ⟨k0, v0⟩ := p
      by_cases h : k0 = k
      · subst h
        simp [Dict.set, Dict.get?]
      · simp only [Dict.set, if_neg h, Dict.get?] at ih ⊢
        rw [List.find?_cons_of_neg]
        · exact ih
        · simp [h]

theorem Dict.get?_set_ne (d : Dict) (k k' : String) (v : Value) (h : k' ≠ k) :
    Dict.get? (Dict.set d k v) k' = Dict.get? d k' := by
  have hkk' : ((k : String) == k') = false := beq_eq_false_iff_ne.mpr (Ne.symm h)
  induction d with
  | nil => simp [Dict.set, Dict.get?, List.find?, hkk']
  | cons p rest ih =>
      obtain ⟨k0, v0⟩ := p
      by_cases hk : k0 = k
      · subst hk
        simp [Dict.set, Dict.get?, List.find?, hkk']
      · by_cases h0 : k0 = k'
        · subst h0
          simp [Dict.set, hk, Dict.get?, List.find?]
        · have h0' : ((k0 : String) == k') = false := beq_eq_false_iff_ne.mpr h0
          simp only [Dict.set, if_neg hk, Dict.get?, List.find?, h0']
          simpa [Dict.get?] using ih

/-! ### Vector lemmas -/

theorem dot_cons (x y : ℚ) (xs ys : List ℚ) :
    dot (x :: xs) (y :: ys) = x * y + dot xs ys := by
  simp [dot, List.zipWith_cons_cons]

theorem dot_self_nonneg (v : List ℚ) : 0 ≤ dot v v := by
  induction v with
  | nil => simp [dot]
  | cons x xs ih => rw [dot_cons]; nlinarith [mul_self_nonneg x]

theorem dot_self_eq_zero_iff (v : List ℚ) : dot v v = 0 ↔ allZero v := by
  induction v with
  | nil => simp [dot, allZero]
  | cons x xs ih =>
      rw [dot_cons]
      constructor
      · intro h
        have hx : x * x = 0 := by nlinarith [dot_self_nonneg xs, mul_self_nonneg x]
        have hxs : dot xs xs = 0 := by nlinarith [dot_self_nonneg xs, mul_self_nonneg x]
        intro y hy
        rcases List.mem_cons.mp hy with hy | hy
        · exact hy ▸ mul_self_eq_zero.mp hx
        · exact (ih.mp hxs) y hy
      · intro h
        have hx : x = 0 := h x (List.mem_cons_self _ _)
        have hxs : dot xs xs = 0 := ih.mpr (fun y hy => h y (List.mem_cons_of_mem _ hy))
        rw [hx, hxs]; ring

theorem dot_replicate_zero_left (n : ℕ) (w : List ℚ) :
    dot (List.replicate n 0) w = 0 := by
  induction n generalizing w with
  | zero => simp [dot]
  | succ n ih =>
      cases w with
      | nil => simp [dot]
      | cons y ys => rw [List.replicate_succ, dot_cons, ih]; ring

theorem normSq_nonneg (v : List ℚ) : 0 ≤ normSq v := dot_self_nonneg v

theorem normSq_eq_zero_iff (v : List ℚ) : normSq v = 0 ↔ allZero v :=
  dot_self_eq_zero_iff v

theorem normSq_zeroVec : normSq zeroVec = 0 := by
  simp [normSq, zeroVec, dot_replicate_zero_left]

/-! ### Score order: the Boolean comparison agrees with the real order -/

theorem Score.val_den_one (t : ℚ) : Score.val ⟨t, 1⟩ = (t : ℝ) := by
  simp [Score.val, Real.sqrt_one]

theorem Score.blt_iff (x y : Score) (hx : 0 < x.s) (hy : 0 < y.s) :
    Score.blt x y = true ↔ Score.val x < Score.val y := by
  have hxs : (0 : ℝ) < (x.s : ℝ) := by exact_mod_cast hx
  have hys : (0 : ℝ) < (y.s : ℝ) := by exact_mod_cast hy
  have hp : (0 : ℝ) < Real.sqrt (x.s : ℝ) := Real.sqrt_pos.mpr hxs
  have hq : (0 : ℝ) < Real.sqrt (y.s : ℝ) := Real.sqrt_pos.mpr hys
  have hp2 : Real.sqrt (x.s : ℝ) * Real.sqrt (x.s : ℝ) = (x.s : ℝ) :=
    Real.mul_self_sqrt hxs.le
  have hq2 : Real.sqrt (y.s : ℝ) * Real.sqrt (y.s : ℝ) = (y.s : ℝ) :=
    Real.mul_self_sqrt hys.le
  rw [Score.val, Score.val, div_lt_div_iff₀ hp hq, Score.blt]
  split_ifs with hxd
  · have hxdR : (0 : ℝ) ≤ (x.d : ℝ) := by exact_mod_cast hxd
    simp only [decide_eq_true_eq]
    constructor
    · rintro ⟨hyd, hlt⟩
      have hydR : (0 : ℝ) < (y.d : ℝ) := by exact_mod_cast hyd
      have hltR : (x.d : ℝ) * (x.d : ℝ) * (y.s : ℝ) < (y.d : ℝ) * (y.d : ℝ) * (x.s : ℝ) := by
        exact_mod_cast hlt
      have h1 : (0 : ℝ) ≤ (x.d : ℝ) * Real.sqrt (y.s : ℝ) := mul_nonneg hxdR hq.le
      have h2 : (0 : ℝ) ≤ (y.d : ℝ) * Real.sqrt (x.s : ℝ) := mul_nonneg hydR.le hp.le
      rw [mul_self_lt_mul_self_iff h1 h2]
      nlinarith [hp2, hq2]
    · intro hlt
      have hyd : (0 : ℝ) < (y.d : ℝ) := by
        by_contra hc
        push_neg at hc
        have hle : (y.d : ℝ) * Real.sqrt (x.s : ℝ) ≤ 0 :=
          mul_nonpos_of_nonpos_of_nonneg hc hp.le
        nlinarith [mul_nonneg hxdR hq.le]
      refine ⟨by exact_mod_cast hyd, ?_⟩
      have h1 : (0 : ℝ) ≤ (x.d : ℝ) * Real.sqrt (y.s : ℝ) := mul_nonneg hxdR hq.le
      have h2 : (0 : ℝ) ≤ (y.d : ℝ) * Real.sqrt (x.s : ℝ) := mul_nonneg hyd.le hp.le
      have hsq := (mul_self_lt_mul_self_iff h1 h2).mp hlt
      have : (x.d : ℝ) * (x.d : ℝ) * (y.s : ℝ) < (y.d : ℝ) * (y.d : ℝ) * (x.s : ℝ) := by
        nlinarith [hp2, hq2]
      exact_mod_cast this
  · push_neg at hxd
    have hxdR : (x.d : ℝ) < 0 := by exact_mod_cast hxd
    simp only [decide_eq_true_eq]
    constructor
    · rintro (hyd | ⟨hyd, hlt⟩)
      · have hydR : (0 : ℝ) ≤ (y.d : ℝ) := by exact_mod_cast hyd
        calc (x.d : ℝ) * Real.sqrt (y.s : ℝ) < 0 := mul_neg_of_neg_of_pos hxdR hq
          _ ≤ (y.d : ℝ) * Real.sqrt (x.s : ℝ) := mul_nonneg hydR hp.le
      · have hydR : (y.d : ℝ) < 0 := by exact_mod_cast hyd
        have hltR : (y.d : ℝ) * (y.d : ℝ) * (x.s : ℝ) < (x.d : ℝ) * (x.d : ℝ) * (y.s : ℝ) := by
          exact_mod_cast hlt
        have h1 : (0 : ℝ) ≤ -((y.d : ℝ) * Real.sqrt (x.s : ℝ)) := by nlinarith
        have h2 : (0 : ℝ) ≤ -((x.d : ℝ) * Real.sqrt (y.s : ℝ)) := by nlinarith
        have key : -((y.d : ℝ) * Real.sqrt (x.s : ℝ)) < -((x.d : ℝ) * Real.sqrt (y.s : ℝ)) := by
          rw [mul_self_lt_mul_self_iff h1 h2]
          nlinarith [hp2, hq2]
        linarith
    · intro hlt
      by_cases hyd : 0 ≤ y.d
      · exact Or.inl hyd
      · push_neg at hyd
        refine Or.inr ⟨hyd, ?_⟩
        have hydR : (y.d : ℝ) < 0 := by exact_mod_cast hyd
        have h1 : (0 : ℝ) ≤ -((y.d : ℝ) * Real.sqrt (x.s : ℝ)) := by nlinarith
        have h2 : (0 : ℝ) ≤ -((x.d : ℝ) * Real.sqrt (y.s : ℝ)) := by nlinarith
        have key : -((y.d : ℝ) * Real.sqrt (x.s : ℝ)) < -((x.d : ℝ) * Real.sqrt (y.s : ℝ)) := by
          linarith
        have hsq := (mul_self_lt_mul_self_iff h1 h2).mp key
        have : (y.d : ℝ) * (y.d : ℝ) * (x.s : ℝ) < (x.d : ℝ) * (x.d : ℝ) * (y.s : ℝ) := by
          nlinarith [hp2, hq2]
        exact_mod_cast this

theorem simScore_s_pos (a b : List ℚ) : 0 < (simScore a b).s := by
  rw [simScore]
  split_ifs with h
  · norm_num
  · push_neg at h
    have ha := lt_of_le_of_ne (normSq_nonneg a) (Ne.symm h.1)
    have hb := lt_of_le_of_ne (normSq_nonneg b) (Ne.symm h.2)
    exact mul_pos ha hb

theorem simScore_val (a b : List ℚ) : (simScore a b).val = cosineSim a b := by
  rw [simScore, cosineSim]
  split_ifs with h
  · simp [Score.val, Real.sqrt_one]
  · push_neg at h
    have ha := lt_of_le_of_ne (normSq_nonneg a) (Ne.symm h.1)
    simp only [Score.val]
    rw [show (((normSq a * normSq b : ℚ) : ℝ)) = ((normSq a : ℚ) : ℝ) * ((normSq b : ℚ) : ℝ) by
      push_cast; ring]
    rw [Real.sqrt_mul (by exact_mod_cast ha.le)]

theorem simScore_zero_left (a b : List ℚ) (h : normSq a = 0) :
    simScore a b = ⟨0, 1⟩ := by
  rw [simScore, if_pos (Or.inl h)]

theorem simScore_zero_right (a b : List ℚ) (h : normSq b = 0) :
    simScore a b = ⟨0, 1⟩ := by
  rw [simScore, if_pos (Or.inr h)]

theorem blt_threshold_iff (t : ℚ) (x : Score) (hx : 0 < x.s) :
    Score.blt ⟨t, 1⟩ x = true ↔ (t : ℝ) < x.val := by
  rw [Score.blt_iff ⟨t, 1⟩ x (by norm_num) hx, Score.val_den_one]

/-! ### Sorting: permutation, order, stability -/

theorem sortInsertKey_perm {α : Type*} (key : α → Score) (x : α) (l : List α) :
    (sortInsertKey key x l).Perm (x :: l) := by
  induction l with
  | nil => simp [sortInsertKey]
  | cons y ys ih =>
      simp only [sortInsertKey]
      split_ifs with h
      · exact (ih.cons y).trans (List.Perm.swap x y ys)
      · exact List.Perm.refl _

theorem mem_sortInsertKey {α : Type*} (key : α → Score) (x z : α) (l : List α) :
    z ∈ sortInsertKey key x l ↔ z = x ∨ z ∈ l := by
  have := (sortInsertKey_perm key x l).mem_iff (a := z)
  simpa using this

theorem sortDescKey_perm {α : Type*} (key : α → Score) (l : List α) :
    (sortDescKey key l).Perm l := by
  induction l with
  | nil => simp [sortDescKey]
  | cons x xs ih =>
      simp only [sortDescKey]
      exact (sortInsertKey_perm key x _).trans (ih.cons x)

theorem sortInsertKey_pairwise {α : Type*} (key : α → Score) (idx : α → ℕ)
    (x : α) (l : List α)
    (hsx : 0 < (key x).s) (hs : ∀ y ∈ l, 0 < (key y).s)
    (hx : ∀ y ∈ l, idx x < idx y)
    (hl : l.Pairwise (rankLex key idx)) :
    (sortInsertKey key x l).Pairwise (rankLex key idx) := by
  induction l with
  | nil => simp [sortInsertKey]
  | cons y ys ih =>
      have hsy : 0 < (key y).s := hs y (List.mem_cons_self y ys)
      simp only [sortInsertKey]
      split_ifs with h
      · have hvxy : (key x).val < (key y).val := (Score.blt_iff _ _ hsx hsy).mp h
        rw [List.pairwise_cons]
        constructor
        · intro z hz
          rcases (mem_sortInsertKey key x z ys).mp hz with rfl | hzys
          · exact Or.inl hvxy
          · exact (List.pairwise_cons.mp hl).1 z hzys
        · exact ih (fun a ha => hs a (List.mem_cons_of_mem _ ha))
            (fun a ha => hx a (List.mem_cons_of_mem _ ha))
            (List.pairwise_cons.mp hl).2
      · have hvyx : (key y).val ≤ (key x).val := by
          by_contra hc
          push_neg at hc
          exact h ((Score.blt_iff _ _ hsx hsy).mpr hc)
        rw [List.pairwise_cons]
        refine ⟨?_, hl⟩
        intro z hz
        rcases List.mem_cons.mp hz with rfl | hzys
        · rcases lt_or_eq_of_le hvyx with hlt | heq
          · exact Or.inl hlt
          · exact Or.inr ⟨heq.symm, hx z (List.mem_cons_self z ys)⟩
        · have hz' : (key z).val ≤ (key y).val := by
            rcases (List.pairwise_cons.mp hl).1 z hzys with h1 | ⟨h1, _⟩
            · exact h1.le
            · exact le_of_eq h1.symm
          rcases lt_or_eq_of_le (hz'.trans hvyx) with hlt | heq
          · exact Or.inl hlt
          · exact Or.inr ⟨heq.symm, hx z (List.mem_cons_of_mem _ hzys)⟩

theorem sortDescKey_pairwise {α : Type*} (key : α → Score) (idx : α → ℕ)
    (l : List α) (hs : ∀ y ∈ l, 0 < (key y).s)
    (hidx : l.Pairwise (fun a b => idx a < idx b)) :
    (sortDescKey key l).Pairwise (rankLex key idx) := by
  induction l with
  | nil => simp [sortDescKey]
  | cons x xs ih =>
      simp only [sortDescKey]
      have hmem : ∀ y ∈ sortDescKey key xs, y ∈ xs :=
        fun y hy => (sortDescKey_perm key xs).mem_iff.mp hy
      apply sortInsertKey_pairwise
      · exact hs x (List.mem_cons_self x xs)
      · exact fun y hy => hs y (List.mem_cons_of_mem _ (hmem y hy))
      · exact fun y hy => (List.pairwise_cons.mp hidx).1 y (hmem y hy)
      · exact ih (fun y hy => hs y (List.mem_cons_of_mem _ hy))
          (List.pairwise_cons.mp hidx).2

theorem sortInsertKey_map {α β : Type*} (key1 : α → Score) (key2 : β → Score)
    (f : β → α) (hk : ∀ b, key1 (f b) = key2 b) (x : β) (l : List β) :
    sortInsertKey key1 (f x) (l.map f) = (sortInsertKey key2 x l).map f := by
  induction l with
  | nil => simp [sortInsertKey]
  | cons y ys ih =>
      simp only [List.map_cons, sortInsertKey, hk]
      split_ifs with h
      · simp [ih]
      · simp

theorem sortDescKey_map {α β : Type*} (key1 : α → Score) (key2 : β → Score)
    (f : β → α) (hk : ∀ b, key1 (f b) = key2 b) (l : List β) :
    sortDescKey key1 (l.map f) = (sortDescKey key2 l).map f := by
  induction l with
  | nil => simp [sortDescKey]
  | cons x xs ih =>
      simp only [List.map_cons, sortDescKey, ih]
      exact sortInsertKey_map key1 key2 f hk x (sortDescKey key2 xs)

/-! ### Enumeration lemmas -/

theorem length_enumFrom {α : Type*} (l : List α) : ∀ n, (enumFrom n l).length = l.length := by
  induction l with
  | nil => intro n; simp [enumFrom]
  | cons x xs ih => intro n; simp [enumFrom, ih]

theorem getElem?_enumFrom {α : Type*} (l : List α) :
    ∀ n j, (enumFrom n l)[j]? = l[j]?.map (fun a => (n + j, a)) := by
  induction l with
  | nil => intro n j; simp [enumFrom]
  | cons x xs ih =>
      intro n j
      cases j with
      | zero => simp [enumFrom]
      | succ j =>
          simp only [enumFrom, List.getElem?_cons_succ, ih (n + 1) j]
          have hnj : n + 1 + j = n + (j + 1) := by omega
          rw [hnj]

theorem le_fst_of_mem_enumFrom {α : Type*} (l : List α) :
    ∀ n (q : ℕ × α), q ∈ enumFrom n l → n ≤ q.1 := by
  induction l with
  | nil => intro n q hq; simp [enumFrom] at hq
  | cons x xs ih =>
      intro n q hq
      rcases List.mem_cons.mp hq with rfl | hq
      · exact le_refl n
      · exact Nat.le_of_succ_le (ih (n + 1) q hq)

theorem pairwise_fst_enumFrom {α : Type*} (l : List α) :
    ∀ n, (enumFrom n l).Pairwise (fun p q => p.1 < q.1) := by
  induction l with
  | nil => intro n; simp [enumFrom]
  | cons x xs ih =>
      intro n
      simp only [enumFrom, List.pairwise_cons]
      exact ⟨fun q hq => Nat.lt_of_succ_le (le_fst_of_mem_enumFrom xs (n + 1) q hq),
        ih (n + 1)⟩

theorem mem_enumFrom_zero {α : Type*} (l : List α) (i : ℕ) (a : α) :
    (i, a) ∈ enumFrom 0 l ↔ l[i]? = some a := by
  rw [List.mem_iff_getElem?]
  constructor
  · rintro ⟨j, hj⟩
    rw [getElem?_enumFrom] at hj
    cases hl : l[j]? with
    | none => rw [hl] at hj; simp at hj
    | some b =>
        rw [hl] at hj
        simp only [Option.map_some', Option.some.injEq, Prod.mk.injEq, Nat.zero_add] at hj
        obtain ⟨hji, hba⟩ := hj
        rw [← hji, hl, hba]
  · intro h
    exact ⟨i, by rw [getElem?_enumFrom, h]; simp⟩

/-! ### Batch orchestration lemmas -/

theorem batchLoop_eq (env : ℕ → Oracle) (b : ℕ) :
    ∀ (n : ℕ) (l : List (ℕ × Dict)), l.length ≤ n → ∀ (acc : List Dict),
      batchLoop env b l acc = acc ++ l.map (fun p => processOne (env p.1) p.2) := by
  intro n
  induction n with
  | zero =>
      intro l hl acc
      have : l = [] := List.eq_nil_of_length_eq_zero (Nat.le_zero.mp hl)
      subst this
      simp [batchLoop]
  | succ n ih =>
      intro l hl acc
      cases l with
      | nil => simp [batchLoop]
      | cons x xs =>
          rw [batchLoop]
          rw [ih (xs.drop b) (by simp only [List.length_drop]; simp at hl; omega)]
          rw [List.append_assoc, ← List.map_append, List.cons_append,
            List.take_append_drop]

theorem batch_enrich_companies_eq (env : ℕ → Oracle) (companies init : List Dict)
    (bs : ℕ) :
    batch_enrich_companies env companies init bs =
      init ++ (enumFrom 0 companies).map (fun p => processOne (env p.1) p.2) := by
  rw [batch_enrich_companies]
  exact batchLoop_eq env (bs - 1) (enumFrom 0 companies).length _ (le_refl _) init

theorem batch_enrich_companies_length (env : ℕ → Oracle) (companies init : List Dict)
    (bs : ℕ) :
    (batch_enrich_companies env companies init bs).length =
      init.length + companies.length := by
  rw [batch_enrich_companies_eq]
  simp [length_enumFrom]

theorem batch_enrich_companies_getElem? (env : ℕ → Oracle) (companies : List Dict)
    (bs : ℕ) (j : ℕ) :
    (batch_enrich_companies env companies [] bs)[j]? =
      (companies[j]?).map (fun c => processOne (env j) c) := by
  rw [batch_enrich_companies_eq, List.nil_append, List.getElem?_map, getElem?_enumFrom]
  cases companies[j]? <;> simp

/-! ### Search characterisation lemmas -/

theorem recordScore?_some_iff (q : List ℚ) (t : ℚ) (c : Dict) (cs : Dict × Score) :
    recordScore? q t c = some cs ↔
      ∃ v, embOf? c = some v ∧ Score.blt ⟨t, 1⟩ (simScore q v) = true ∧
        cs = (c, simScore q v) := by
  rw [recordScore?]
  cases h : embOf? c with
  | none => simp
  | some v =>
      dsimp only
      split_ifs with hb
      · constructor
        · intro h2
          exact ⟨v, rfl, hb, (Option.some.inj h2).symm⟩
        · rintro ⟨v', hv', hb', rfl⟩
          obtain rfl : v = v' := Option.some.inj hv'
          rfl
      · constructor
        · intro h2
          exact absurd h2 (by simp)
        · rintro ⟨v', hv', hb', rfl⟩
          obtain rfl : v = v' := Option.some.inj hv'
          exact absurd hb' hb

theorem mem_scoredIdx (q : List ℚ) (t : ℚ) (enriched : List Dict) (i : ℕ)
    (c : Dict) (sc : Score) :
    (i, c, sc) ∈ scoredIdx q t enriched ↔
      enriched[i]? = some c ∧ ∃ v, embOf? c = some v ∧
        Score.blt ⟨t, 1⟩ (simScore q v) = true ∧ sc = simScore q v := by
  rw [scoredIdx, List.mem_filterMap]
  constructor
  · rintro ⟨⟨j, c'⟩, hmem, hf⟩
    cases hr : recordScore? q t c' with
    | none => rw [hr] at hf; exact absurd hf (by simp)
    | some cs =>
        rw [hr] at hf
        simp only [Option.map_some', Option.some.injEq] at hf
        obtain ⟨v, hv, hb, hcs⟩ := (recordScore?_some_iff q t c' cs).mp hr
        have hj : j = i := congrArg Prod.fst hf
        have hcs2 : cs = (c, sc) := congrArg Prod.snd hf
        rw [hcs] at hcs2
        have hc : c' = c := congrArg Prod.fst hcs2
        have hsc : simScore q v = sc := congrArg Prod.snd hcs2
        subst hj hc
        exact ⟨(mem_enumFrom_zero enriched j c').mp hmem, v, hv, hb, hsc.symm⟩
  · rintro ⟨hi, v, hv, hb, rfl⟩
    refine ⟨(i, c), (mem_enumFrom_zero enriched i c).mpr hi, ?_⟩
    rw [(recordScore?_some_iff q t c (c, simScore q v)).mpr ⟨v, hv, hb, rfl⟩]
    rfl

theorem scoredIdx_s_pos (q : List ℚ) (t : ℚ) (enriched : List Dict) :
    ∀ p ∈ scoredIdx q t enriched, 0 < (p.2.2).s := by
  rintro ⟨i, c, sc⟩ hp
  obtain ⟨-, v, -, -, rfl⟩ := (mem_scoredIdx q t enriched i c sc).mp hp
  exact simScore_s_pos q v

theorem scoredIdx_pairwise_fst (q : List ℚ) (t : ℚ) (enriched : List Dict) :
    (scoredIdx q t enriched).Pairwise (fun p r => p.1 < r.1) := by
  rw [scoredIdx]
  rw [List.pairwise_filterMap]
  have h := pairwise_fst_enumFrom enriched 0
  refine h.imp_of_mem ?_
  rintro ⟨i, c⟩ ⟨j, c'⟩ hmem hmem' hij
  intro b hb b' hb'
  cases hr : recordScore? q t c with
  | none => rw [hr] at hb; simp at hb
  | some cs =>
      rw [hr] at hb
      cases hr' : recordScore? q t c' with
      | none => rw [hr'] at hb'; simp at hb'
      | some cs' =>
          rw [hr'] at hb'
          simp only [Option.map_some', Option.mem_def, Option.some.injEq] at hb hb'
          rw [← hb, ← hb']
          exact hij

theorem filterMap_enumFrom_map_snd {α β : Type*} (g : α → Option β) (l : List α) :
    ∀ n, ((enumFrom n l).filterMap
        (fun p => (g p.2).map (fun b => (p.1, b)))).map Prod.snd = l.filterMap g := by
  induction l with
  | nil => intro n; simp [enumFrom]
  | cons x xs ih =>
      intro n
      simp only [enumFrom, List.filterMap_cons]
      cases h : g x with
      | none => simp [ih]
      | some b => simp [ih]

theorem scoredPairs_eq_map (q : List ℚ) (t : ℚ) (enriched : List Dict) :
    scoredPairs q t enriched = (scoredIdx q t enriched).map Prod.snd := by
  rw [scoredPairs, scoredIdx]
  exact (filterMap_enumFrom_map_snd (recordScore? q t) enriched 0).symm

theorem semanticSearchWith_eq (t : ℚ) (qo : Option (List ℚ)) (enriched : List Dict)
    (top_k : ℕ) (hne : ¬ enriched.isEmpty)
    (hdims : dimsOk (generate_embedding qo) enriched = true) :
    semanticSearchWith t qo enriched top_k =
      ((sortDescKey (fun p => p.2.2)
          (scoredIdx (generate_embedding qo) t enriched)).take top_k).map
        (fun p => attachScore p.2) := by
  rw [semanticSearchWith]
  rw [if_neg (by simpa using hne)]
  rw [if_pos hdims, scoredPairs_eq_map,
    sortDescKey_map (fun p : Dict × Score => p.2)
      (fun p : ℕ × Dict × Score => p.2.2) Prod.snd (fun b => rfl)
      (scoredIdx (generate_embedding qo) t enriched),
    ← List.map_take, List.map_map]
  rfl

theorem semanticSearchWith_length_eq (t : ℚ) (qo : Option (List ℚ))
    (enriched : List Dict) (top_k : ℕ) (hne : ¬ enriched.isEmpty)
    (hdims : dimsOk (generate_embedding qo) enriched = true) :
    (semanticSearchWith t qo enriched top_k).length =
      min top_k (scoredPairs (generate_embedding qo) t enriched).length := by
  rw [semanticSearchWith_eq t qo enriched top_k hne hdims, scoredPairs_eq_map]
  rw [List.length_map, List.length_take,
    (sortDescKey_perm (fun p : ℕ × Dict × Score => p.2.2)
      (scoredIdx (generate_embedding qo) t enriched)).length_eq,
    List.length_map]

theorem length_scoredPairs_mono (q : List ℚ) (t1 t2 : ℚ) (h : t1 ≤ t2)
    (enriched : List Dict) :
    (scoredPairs q t2 enriched).length ≤ (scoredPairs q t1 enriched).length := by
  induction enriched with
  | nil => simp [scoredPairs]
  | cons c cs ih =>
      simp only [scoredPairs, List.filterMap_cons] at ih ⊢
      cases h2 : recordScore? q t2 c with
      | none =>
          cases h1 : recordScore? q t1 c with
          | none => simpa using ih
          | some p => simp only [List.length_cons]; exact Nat.le_succ_of_le ih
      | some p =>
          have h1 : recordScore? q t1 c = some (c, p.2) := by
            obtain ⟨v, hv, hb, rfl⟩ := (recordScore?_some_iff q t2 c p).mp h2
            refine (recordScore?_some_iff q t1 c _).mpr ⟨v, hv, ?_, rfl⟩
            rw [blt_threshold_iff _ _ (simScore_s_pos q v)] at hb ⊢
            have hR : (t1 : ℝ) ≤ (t2 : ℝ) := by exact_mod_cast h
            linarith
          rw [h1]
          simp only [List.length_cons]
          exact Nat.succ_le_succ ih

/-! ### Small helpers for the claims -/

theorem embOf?_set_embedding (d : Dict) (v : List ℚ) :
    embOf? (Dict.set d "embedding" (Value.vec v)) = some v := by
  rw [embOf?, Dict.get?_set_self]

theorem length_zeroVec : zeroVec.length = embeddingDim := by
  simp [zeroVec]

theorem fallbackDescription_ne_empty (company : Dict) :
    fallbackDescription company ≠ "" := by
  intro h
  have hlen := congrArg String.length h
  rw [fallbackDescription, String.length_append, String.length_append,
    String.length_append] at hlen
  have h10 : ("חברה מסוג " : String).length = 10 := rfl
  have h0 : ("" : String).length = 0 := rfl
  omega

theorem enrich_fallback_unfold (company : Dict) :
    enrich_company_description none company =
      Dict.set (Dict.set (Dict.set (Dict.set (Dict.set (Dict.set company
        "aiDescription" (Value.str (fallbackDescription company)))
        "projectTypes" (Value.list []))
        "architectSpecialties" (Value.list []))
        "complexity" (Value.str "medium"))
        "typicalScale" (Value.str "medium"))
        "searchableText" (Value.str (fallbackSearchableText company)) := rfl

/-- C1 (counterexample): the claim says the enrichment-failure fallback
returns a fully-populated EnrichmentResult including `collaborationStyle`;
but for an input record without that field, the fallback result has no
`collaborationStyle` binding at all. -/
theorem C1_fallback_missing_collaborationStyle_cex :
    Dict.get? (enrich_company_description none ([] : Dict)) "collaborationStyle"
      = none ∧
    Dict.get? (enrich_company_description none ([] : Dict)) "marketTrends"
      = none := by
  constructor <;> rfl

/-- C1 (amended): when the external text-generation call fails,
`enrich_company_description` returns the record extended with all six
fallback fields — a non-empty template-filled `aiDescription`, empty
`projectTypes` and `architectSpecialties`, `complexity` and `typicalScale`
both `"medium"`, and a `searchableText` — but `collaborationStyle` and
`marketTrends` are left exactly as in the input record (absent unless the
input already had them), so the result is not fully populated with
respect to the EnrichmentResult shape. -/
theorem C1_enrich_fallback_fields (company : Dict) :
    Dict.get? (enrich_company_description none company) "aiDescription"
        = some (Value.str (fallbackDescription company)) ∧
    fallbackDescription company ≠ "" ∧
    Dict.get? (enrich_company_description none company) "projectTypes"
        = some (Value.list []) ∧
    Dict.get? (enrich_company_description none company) "architectSpecialties"
        = some (Value.list []) ∧
    Dict.get? (enrich_company_description none company) "complexity"
        = some (Value.str "medium") ∧
    Dict.get? (enrich_company_description none company) "typicalScale"
        = some (Value.str "medium") ∧
    Dict.get? (enrich_company_description none company) "searchableText"
        = some (Value.str (fallbackSearchableText company)) ∧
    Dict.get? (enrich_company_description none company) "collaborationStyle"
        = Dict.get? company "collaborationStyle" ∧
    Dict.get? (enrich_company_description none company) "marketTrends"
        = Dict.get? company "marketTrends" := by
  rw [enrich_fallback_unfold]
  refine ⟨?_, fallbackDescription_ne_empty company, ?_, ?_, ?_, ?_, ?_, ?_, ?_⟩
  · rw [Dict.get?_set_ne _ _ _ _ (by decide), Dict.get?_set_ne _ _ _ _ (by decide),
      Dict.get?_set_ne _ _ _ _ (by decide), Dict.get?_set_ne _ _ _ _ (by decide),
      Dict.get?_set_ne _ _ _ _ (by decide), Dict.get?_set_self]
  · rw [Dict.get?_set_ne _ _ _ _ (by decide), Dict.get?_set_ne _ _ _ _ (by decide),
      Dict.get?_set_ne _ _ _ _ (by decide), Dict.get?_set_ne _ _ _ _ (by decide),
      Dict.get?_set_self]
  · rw [Dict.get?_set_ne _ _ _ _ (by decide), Dict.get?_set_ne _ _ _ _ (by decide),
      Dict.get?_set_ne _ _ _ _ (by decide), Dict.get?_set_self]
  · rw [Dict.get?_set_ne _ _ _ _ (by decide), Dict.get?_set_ne _ _ _ _ (by decide),
      Dict.get?_set_self]
  · rw [Dict.get?_set_ne _ _ _ _ (by decide), Dict.get?_set_self]
  · rw [Dict.get?_set_self]
  · rw [Dict.get?_set_ne _ _ _ _ (by decide), Dict.get?_set_ne _ _ _ _ (by decide),
      Dict.get?_set_ne _ _ _ _ (by decide), Dict.get?_set_ne _ _ _ _ (by decide),
      Dict.get?_set_ne _ _ _ _ (by decide), Dict.get?_set_ne _ _ _ _ (by decide)]
  · rw [Dict.get?_set_ne _ _ _ _ (by decide), Dict.get?_set_ne _ _ _ _ (by decide),
      Dict.get?_set_ne _ _ _ _ (by decide), Dict.get?_set_ne _ _ _ _ (by decide),
      Dict.get?_set_ne _ _ _ _ (by decide), Dict.get?_set_ne _ _ _ _ (by decide)]

/-- C2: for every input sequence, every per-record external behaviour and
every batch size ≥ 1, the batch run starting from an empty collection
yields exactly one enriched record per input record, in input order (the
`j`-th output is the processed `j`-th input). -/
theorem C2_batch_completeness (env : ℕ → Oracle) (companies : List Dict)
    (bs : ℕ) (hbs : 1 ≤ bs) :
    (batch_enrich_companies env companies [] bs).length = companies.length ∧
    ∀ j c, companies[j]? = some c →
      (batch_enrich_companies env companies [] bs)[j]? =
        some (processOne (env j) c) := by
  refine ⟨?_, ?_⟩
  · rw [batch_enrich_companies_length]
    simp
  · intro j c hc
    rw [batch_enrich_companies_getElem?, hc]
    rfl

theorem C2_batch_completeness_witness :
    1 ≤ 1 ∧
    ((batch_enrich_companies (fun _ => ⟨none, none, false⟩)
        [[("companyName", Value.str "A")], []] [] 1).length =
      ([[("companyName", Value.str "A")], []] : List Dict).length ∧
    ∀ j c, ([[("companyName", Value.str "A")], []] : List Dict)[j]? = some c →
      (batch_enrich_companies (fun _ => ⟨none, none, false⟩)
        [[("companyName", Value.str "A")], []] [] 1)[j]? =
        some (processOne ((fun _ : ℕ => (⟨none, none, false⟩ : Oracle)) j) c)) :=
  ⟨by decide,
    C2_batch_completeness (fun _ => ⟨none, none, false⟩)
      [[("companyName", Value.str "A")], []] 1 (by decide)⟩

/-- C3: if an unexpected error strikes while a record is processed, the
batch still emits an entry for it at its position — the original record's
fields unchanged plus an all-zero embedding and nothing else — and the
run still produces one output per input (no abort). -/
theorem C3_crash_isolation (env : ℕ → Oracle) (companies : List Dict)
    (bs : ℕ) (hbs : 1 ≤ bs) :
    (batch_enrich_companies env companies [] bs).length = companies.length ∧
    ∀ j c, companies[j]? = some c → (env j).crash = true →
      ∃ r, (batch_enrich_companies env companies [] bs)[j]? = some r ∧
        Dict.get? r "embedding" = some (Value.vec zeroVec) ∧
        ∀ key, key ≠ "embedding" → Dict.get? r key = Dict.get? c key := by
  refine ⟨by rw [batch_enrich_companies_length]; simp, ?_⟩
  intro j c hc hcrash
  refine ⟨processOne (env j) c, by rw [batch_enrich_companies_getElem?, hc]; rfl, ?_, ?_⟩
  · rw [processOne, if_pos hcrash, Dict.get?_set_self]
  · intro key hkey
    rw [processOne, if_pos hcrash, Dict.get?_set_ne _ _ _ _ hkey]

theorem C3_crash_isolation_witness :
    1 ≤ 1 ∧
    ((batch_enrich_companies (fun _ => ⟨none, none, true⟩)
        [[("companyName", Value.str "A")]] [] 1).length =
      ([[("companyName", Value.str "A")]] : List Dict).length ∧
    ∀ j c, ([[("companyName", Value.str "A")]] : List Dict)[j]? = some c →
      ((fun _ : ℕ => (⟨none, none, true⟩ : Oracle)) j).crash = true →
      ∃ r, (batch_enrich_companies (fun _ => ⟨none, none, true⟩)
          [[("companyName", Value.str "A")]] [] 1)[j]? = some r ∧
        Dict.get? r "embedding" = some (Value.vec zeroVec) ∧
        ∀ key, key ≠ "embedding" → Dict.get? r key = Dict.get? c key) :=
  ⟨by decide,
    C3_crash_isolation (fun _ => ⟨none, none, true⟩)
      [[("companyName", Value.str "A")]] 1 (by decide)⟩

/-- C7: every record emitted by the batch pipeline carries exactly one
embedding of dimension 1536, whether it came from the embedding capability
(whose contract returns dimension-1536 vectors), from the zero-vector
fallback of `generate_embedding`, or from the orchestrator's per-item
crash fallback. -/
theorem C7_embedding_dimension (env : ℕ → Oracle) (companies : List Dict)
    (bs : ℕ) (hbs : 1 ≤ bs)
    (henv : ∀ j v, (env j).embedResult = some v → v.length = embeddingDim) :
    ∀ c ∈ batch_enrich_companies env companies [] bs,
      ∃ v, embOf? c = some v ∧ v.length = embeddingDim := by
  intro c hc
  rw [batch_enrich_companies_eq, List.nil_append] at hc
  obtain ⟨⟨j, c0⟩, hmem, rfl⟩ := List.mem_map.mp hc
  rw [processOne]
  split_ifs with hcrash
  · exact ⟨zeroVec, embOf?_set_embedding _ _, length_zeroVec⟩
  · refine ⟨generate_embedding (env j).embedResult, embOf?_set_embedding _ _, ?_⟩
    cases he : (env j).embedResult with
    | some v => simpa [generate_embedding] using henv j v he
    | none =>
        show (List.replicate embeddingDim (0 : ℚ)).length = embeddingDim
        exact List.length_replicate _ _

theorem C7_embedding_dimension_witness :
    1 ≤ 1 ∧
    (∀ j v, ((fun _ : ℕ =>
        (⟨none, some (List.replicate 1536 (1 : ℚ)), false⟩ : Oracle)) j).embedResult =
          some v → v.length = embeddingDim) ∧
    ∀ c ∈ batch_enrich_companies
        (fun _ => ⟨none, some (List.replicate 1536 (1 : ℚ)), false⟩)
        [[("companyName", Value.str "A")]] [] 1,
      ∃ v, embOf? c = some v ∧ v.length = embeddingDim := by
  refine ⟨by decide, ?_, ?_⟩
  · intro j v h
    obtain rfl : List.replicate 1536 (1 : ℚ) = v := Option.some.inj h
    rw [List.length_replicate]
    rfl
  · exact C7_embedding_dimension
      (fun _ => ⟨none, some (List.replicate 1536 (1 : ℚ)), false⟩)
      [[("companyName", Value.str "A")]] 1 (by decide)
      (by intro j v h
          obtain rfl : List.replicate 1536 (1 : ℚ) = v := Option.some.inj h
          rw [List.length_replicate]
          rfl)

/-- C10: the batch run appends to the existing enriched collection without
clearing it: the result is the prior contents followed by one new entry
per input record; the completeness equality holds exactly when the prior
collection was empty; and a second run over the same inputs doubles the
collection size. -/
theorem C10_batch_appends (env env2 : ℕ → Oracle) (companies init : List Dict)
    (bs : ℕ) (hbs : 1 ≤ bs) :
    batch_enrich_companies env companies init bs =
      init ++ batch_enrich_companies env companies [] bs ∧
    (batch_enrich_companies env companies init bs).length =
      init.length + companies.length ∧
    ((batch_enrich_companies env companies init bs).length = companies.length
      ↔ init = []) ∧
    (batch_enrich_companies env2 companies
        (batch_enrich_companies env companies [] bs) bs).length =
      2 * companies.length := by
  refine ⟨?_, batch_enrich_companies_length env companies init bs, ?_, ?_⟩
  · rw [batch_enrich_companies_eq env companies init bs,
      batch_enrich_companies_eq env companies [] bs, List.nil_append]
  · rw [batch_enrich_companies_length]
    constructor
    · intro h
      exact List.eq_nil_of_length_eq_zero (by omega)
    · intro h
      rw [h]
      simp
  · rw [batch_enrich_companies_length, batch_enrich_companies_length]
    simp
    omega

theorem C10_batch_appends_witness :
    1 ≤ 1 ∧
    (batch_enrich_companies (fun _ => ⟨none, none, false⟩)
        [[("companyName", Value.str "A")]] [[("companyName", Value.str "B")]] 1 =
      [[("companyName", Value.str "B")]] ++
        batch_enrich_companies (fun _ => ⟨none, none, false⟩)
          [[("companyName", Value.str "A")]] [] 1 ∧
    (batch_enrich_companies (fun _ => ⟨none, none, false⟩)
        [[("companyName", Value.str "A")]] [[("companyName", Value.str "B")]] 1).length =
      ([[("companyName", Value.str "B")]] : List Dict).length +
        ([[("companyName", Value.str "A")]] : List Dict).length ∧
    ((batch_enrich_companies (fun _ => ⟨none, none, false⟩)
        [[("companyName", Value.str "A")]] [[("companyName", Value.str "B")]] 1).length =
      ([[("companyName", Value.str "A")]] : List Dict).length ↔
        ([[("companyName", Value.str "B")]] : List Dict) = []) ∧
    (batch_enrich_companies (fun _ => ⟨none, none, false⟩)
        [[("companyName", Value.str "A")]]
        (batch_enrich_companies (fun _ => ⟨none, none, false⟩)
          [[("companyName", Value.str "A")]] [] 1) 1).length =
      2 * ([[("companyName", Value.str "A")]] : List Dict).length) :=
  ⟨by decide,
    C10_batch_appends (fun _ => ⟨none, none, false⟩) (fun _ => ⟨none, none, false⟩)
      [[("companyName", Value.str "A")]] [[("companyName", Value.str "B")]] 1
      (by decide)⟩

/-! ### Search claims -/

theorem not_blt_zero_of_nonneg (t : ℚ) (ht : 0 ≤ t) :
    Score.blt ⟨t, 1⟩ ⟨0, 1⟩ = false := by
  rw [← Bool.not_eq_true, blt_threshold_iff t ⟨0, 1⟩ (by norm_num)]
  rw [show (⟨0, 1⟩ : Score).val = ((0 : ℚ) : ℝ) from Score.val_den_one 0]
  push_cast
  exact not_lt.mpr (by exact_mod_cast ht)

theorem mem_semanticSearchWith (t : ℚ) (qo : Option (List ℚ))
    (enriched : List Dict) (top_k : ℕ) (r : Dict)
    (hr : r ∈ semanticSearchWith t qo enriched top_k) :
    ∃ p ∈ scoredIdx (generate_embedding qo) t enriched, r = attachScore p.2 := by
  rw [semanticSearchWith] at hr
  split_ifs at hr with h1 h2
  · simp at hr
  · obtain ⟨p, hp, rfl⟩ := List.mem_map.mp hr
    have hp2 := List.mem_of_mem_take hp
    have hp3 := (sortDescKey_perm (fun p : Dict × Score => p.2)
      (scoredPairs (generate_embedding qo) t enriched)).mem_iff.mp hp2
    rw [scoredPairs_eq_map] at hp3
    obtain ⟨pi, hpi, rfl⟩ := List.mem_map.mp hp3
    exact ⟨pi, hpi, rfl⟩
  · simp at hr

/-- C4: for every non-empty collection whose records all carry embeddings
dimensionally compatible with the query embedding, `semantic_search`
returns exactly the records whose cosine similarity to the query embedding
strictly exceeds the threshold 0.3, in descending similarity order with
ties broken by original collection order, truncated to the first `top_k`,
each record carrying its similarity score; hence the result holds at most
`min top_k (collection size)` entries. -/
theorem C4_search_characterisation (qo : Option (List ℚ)) (enriched : List Dict)
    (top_k : ℕ) (hne : enriched ≠ [])
    (hdims : dimsOk (generate_embedding qo) enriched = true) :
    ∃ L : List (ℕ × Dict × Score),
      L.Perm (scoredIdx (generate_embedding qo) (3 / 10) enriched) ∧
      L.Pairwise (rankLex (fun p : ℕ × Dict × Score => p.2.2) (fun p => p.1)) ∧
      (∀ i c v, enriched[i]? = some c → embOf? c = some v →
        (((3 / 10 : ℚ) : ℝ) < cosineSim (generate_embedding qo) v ↔
          (i, c, simScore (generate_embedding qo) v) ∈ L)) ∧
      semantic_search qo enriched top_k =
        (L.take top_k).map (fun p => attachScore p.2) ∧
      (semantic_search qo enriched top_k).length ≤ min top_k enriched.length := by
  refine ⟨sortDescKey (fun p => p.2.2)
      (scoredIdx (generate_embedding qo) (3 / 10) enriched),
    sortDescKey_perm _ _, ?_, ?_, ?_, ?_⟩
  · exact sortDescKey_pairwise (fun p : ℕ × Dict × Score => p.2.2) (fun p => p.1) _
      (scoredIdx_s_pos _ _ _) (scoredIdx_pairwise_fst _ _ _)
  · intro i c v hi hv
    rw [(sortDescKey_perm (fun p : ℕ × Dict × Score => p.2.2)
      (scoredIdx (generate_embedding qo) (3 / 10) enriched)).mem_iff]
    rw [mem_scoredIdx]
    constructor
    · intro hsim
      refine ⟨hi, v, hv, ?_, rfl⟩
      rw [blt_threshold_iff _ _ (simScore_s_pos _ v), simScore_val]
      exact hsim
    · rintro ⟨-, v', hv', hb, hsc⟩
      obtain rfl : v = v' := Option.some.inj (hv.symm.trans hv')
      rw [blt_threshold_iff _ _ (simScore_s_pos _ v), simScore_val] at hb
      exact hb
  · rw [semantic_search]
    exact semanticSearchWith_eq (3 / 10) qo enriched top_k (by simpa using hne) hdims
  · rw [semantic_search,
      semanticSearchWith_length_eq (3 / 10) qo enriched top_k (by simpa using hne) hdims,
      scoredPairs_eq_map, List.length_map]
    refine min_le_min (le_refl top_k) ?_
    calc (scoredIdx (generate_embedding qo) (3 / 10) enriched).length
        ≤ (enumFrom 0 enriched).length := List.length_filterMap_le _ _
      _ = enriched.length := length_enumFrom enriched 0

theorem C4_search_characterisation_witness :
    ([[("embedding", Value.vec [1, 0, 0])],
      [("embedding", Value.vec [0, 1, 0])],
      [("embedding", Value.vec [0, 0, 0])]] : List Dict) ≠ [] ∧
    dimsOk (generate_embedding (some [1, 0, 0]))
      [[("embedding", Value.vec [1, 0, 0])],
       [("embedding", Value.vec [0, 1, 0])],
       [("embedding", Value.vec [0, 0, 0])]] = true ∧
    (∃ L : List (ℕ × Dict × Score),
      L.Perm (scoredIdx (generate_embedding (some [1, 0, 0])) (3 / 10)
        [[("embedding", Value.vec [1, 0, 0])],
         [("embedding", Value.vec [0, 1, 0])],
         [("embedding", Value.vec [0, 0, 0])]]) ∧
      L.Pairwise (rankLex (fun p : ℕ × Dict × Score => p.2.2) (fun p => p.1)) ∧
      (∀ i c v, ([[("embedding", Value.vec [1, 0, 0])],
         [("embedding", Value.vec [0, 1, 0])],
         [("embedding", Value.vec [0, 0, 0])]] : List Dict)[i]? = some c →
        embOf? c = some v →
        (((3 / 10 : ℚ) : ℝ) < cosineSim (generate_embedding (some [1, 0, 0])) v ↔
          (i, c, simScore (generate_embedding (some [1, 0, 0])) v) ∈ L)) ∧
      semantic_search (some [1, 0, 0])
          [[("embedding", Value.vec [1, 0, 0])],
           [("embedding", Value.vec [0, 1, 0])],
           [("embedding", Value.vec [0, 0, 0])]] 2 =
        (L.take 2).map (fun p => attachScore p.2) ∧
      (semantic_search (some [1, 0, 0])
          [[("embedding", Value.vec [1, 0, 0])],
           [("embedding", Value.vec [0, 1, 0])],
           [("embedding", Value.vec [0, 0, 0])]] 2).length ≤
        min 2 ([[("embedding", Value.vec [1, 0, 0])],
           [("embedding", Value.vec [0, 1, 0])],
           [("embedding", Value.vec [0, 0, 0])]] : List Dict).length) :=
  ⟨by decide, by decide,
    C4_search_characterisation (some [1, 0, 0])
      [[("embedding", Value.vec [1, 0, 0])],
       [("embedding", Value.vec [0, 1, 0])],
       [("embedding", Value.vec [0, 0, 0])]] 2 (by decide) (by decide)⟩

/-- C5: a record whose embedding is the all-zero vector never appears in
the search results, for any non-zero query and any threshold ≥ 0: its
cosine similarity is 0 by convention, and 0 is not strictly greater than
the threshold, so it never survives the filter. -/
theorem C5_zero_vector_exclusion (t : ℚ) (qo : Option (List ℚ))
    (enriched : List Dict) (top_k : ℕ) (c0 : Dict) (v0 : List ℚ)
    (ht : 0 ≤ t) (hmem : c0 ∈ enriched) (hv0 : embOf? c0 = some v0)
    (hzero : allZero v0) (hq : ¬ allZero (generate_embedding qo)) :
    cosineSim (generate_embedding qo) v0 = 0 ∧
    (∀ p ∈ scoredIdx (generate_embedding qo) t enriched, p.2.1 ≠ c0) ∧
    ∀ r ∈ semanticSearchWith t qo enriched top_k,
      ∀ sc : Score, r ≠ Dict.set c0 "similarity_score" (Value.score sc) := by
  have hns : normSq v0 = 0 := (normSq_eq_zero_iff v0).mpr hzero
  have hblt : ∀ sc', sc' = simScore (generate_embedding qo) v0 →
      Score.blt ⟨t, 1⟩ sc' = false := by
    intro sc' hsc'
    rw [hsc', simScore_zero_right _ _ hns]
    exact not_blt_zero_of_nonneg t ht
  refine ⟨?_, ?_, ?_⟩
  · rw [cosineSim, if_pos (Or.inr hns)]
  · rintro ⟨i, c, sc⟩ hp rfl
    obtain ⟨-, v', hv', hb, -⟩ := (mem_scoredIdx _ t enriched i _ sc).mp hp
    obtain rfl : v0 = v' := Option.some.inj (hv0.symm.trans hv')
    rw [hblt (simScore (generate_embedding qo) v0) rfl] at hb
    exact Bool.false_ne_true hb
  · intro r hr sc hr0
    obtain ⟨⟨i, c, sc'⟩, hp, rfl⟩ := mem_semanticSearchWith t qo enriched top_k r hr
    obtain ⟨-, v', hv', hb, -⟩ := (mem_scoredIdx _ t enriched i c sc').mp hp
    have hembc : Dict.get? c "embedding" = Dict.get? c0 "embedding" := by
      have h1 : Dict.get? (attachScore (c, sc')) "embedding" = Dict.get? c "embedding" :=
        Dict.get?_set_ne c "similarity_score" "embedding" (Value.score sc') (by decide)
      have h2 : Dict.get? (Dict.set c0 "similarity_score" (Value.score sc)) "embedding" =
          Dict.get? c0 "embedding" :=
        Dict.get?_set_ne c0 "similarity_score" "embedding" (Value.score sc) (by decide)
      rw [← h1, ← h2, hr0]
    have hvc : embOf? c = embOf? c0 := by rw [embOf?, embOf?, hembc]
    rw [hv0] at hvc
    obtain rfl : v0 = v' := Option.some.inj (hvc.symm.trans hv')
    rw [hblt (simScore (generate_embedding qo) v0) rfl] at hb
    exact Bool.false_ne_true hb

theorem C5_zero_vector_exclusion_witness :
    (0 : ℚ) ≤ 3 / 10 ∧
    ([("embedding", Value.vec [0, 0, 0])] : Dict) ∈
      ([[("embedding", Value.vec [1, 0, 0])], [("embedding", Value.vec [0, 0, 0])]] : List Dict) ∧
    embOf? [("embedding", Value.vec [0, 0, 0])] = some [0, 0, 0] ∧
    allZero [0, 0, 0] ∧
    ¬ allZero (generate_embedding (some [1, 0, 0])) ∧
    (cosineSim (generate_embedding (some [1, 0, 0])) [0, 0, 0] = 0 ∧
    (∀ p ∈ scoredIdx (generate_embedding (some [1, 0, 0])) (3 / 10)
        [[("embedding", Value.vec [1, 0, 0])], [("embedding", Value.vec [0, 0, 0])]],
      p.2.1 ≠ [("embedding", Value.vec [0, 0, 0])]) ∧
    ∀ r ∈ semanticSearchWith (3 / 10) (some [1, 0, 0])
        [[("embedding", Value.vec [1, 0, 0])], [("embedding", Value.vec [0, 0, 0])]] 20,
      ∀ sc : Score, r ≠ Dict.set [("embedding", Value.vec [0, 0, 0])]
        "similarity_score" (Value.score sc)) :=
  ⟨by norm_num, by simp, rfl, by intro x hx; simpa using hx,
    by
      intro hz
      have h1 := hz 1 (by simp [generate_embedding])
      norm_num at h1,
    C5_zero_vector_exclusion (3 / 10) (some [1, 0, 0])
      [[("embedding", Value.vec [1, 0, 0])], [("embedding", Value.vec [0, 0, 0])]] 20
      [("embedding", Value.vec [0, 0, 0])] [0, 0, 0]
      (by norm_num) (by simp) rfl (by intro x hx; simpa using hx)
      (by
        intro hz
        have h1 := hz 1 (by simp [generate_embedding])
        norm_num at h1)⟩

/-- C6: for a fixed query and fixed collection, raising the relevance
threshold never increases the number of results; the source's
`semantic_search` is this search instantiated at the default
threshold 0.3. -/
theorem C6_threshold_monotonic (t1 t2 : ℚ) (qo : Option (List ℚ))
    (enriched : List Dict) (top_k : ℕ) (h : t1 ≤ t2) :
    (semanticSearchWith t2 qo enriched top_k).length ≤
      (semanticSearchWith t1 qo enriched top_k).length ∧
    semantic_search qo enriched top_k =
      semanticSearchWith (3 / 10) qo enriched top_k := by
  refine ⟨?_, rfl⟩
  by_cases h1 : enriched.isEmpty
  · rw [semanticSearchWith, semanticSearchWith, if_pos h1, if_pos h1]
  · by_cases h2 : dimsOk (generate_embedding qo) enriched = true
    · rw [semanticSearchWith_length_eq t1 qo enriched top_k h1 h2,
        semanticSearchWith_length_eq t2 qo enriched top_k h1 h2]
      exact min_le_min (le_refl top_k) (length_scoredPairs_mono _ t1 t2 h enriched)
    · rw [semanticSearchWith, semanticSearchWith, if_neg h1, if_neg h1,
        if_neg h2, if_neg h2]

theorem C6_threshold_monotonic_witness :
    (0 : ℚ) ≤ 1 / 2 ∧
    ((semanticSearchWith (1 / 2) (some [1, 0])
        [[("embedding", Value.vec [1, 0])]] 20).length ≤
      (semanticSearchWith 0 (some [1, 0])
        [[("embedding", Value.vec [1, 0])]] 20).length ∧
    semantic_search (some [1, 0]) [[("embedding", Value.vec [1, 0])]] 20 =
      semanticSearchWith (3 / 10) (some [1, 0])
        [[("embedding", Value.vec [1, 0])]] 20) :=
  ⟨by norm_num,
    C6_threshold_monotonic 0 (1 / 2) (some [1, 0])
      [[("embedding", Value.vec [1, 0])]] 20 (by norm_num)⟩

/-- C8: search never raises to its caller: an empty collection yields an
empty result (not an error); a failed query-embedding call yields the
empty result via the zero-vector fallback (all similarities are 0, below
0.3); and the failure modes of the similarity computation (missing or
ill-typed or dimensionally mismatched embeddings) are caught and yield
the empty result. -/
theorem C8_search_total (enriched : List Dict) (top_k : ℕ) (qo : Option (List ℚ)) :
    semantic_search qo [] top_k = [] ∧
    semantic_search none enriched top_k = [] ∧
    (dimsOk (generate_embedding qo) enriched = false →
      semantic_search qo enriched top_k = []) := by
  refine ⟨rfl, ?_, ?_⟩
  · rw [semantic_search, semanticSearchWith]
    split_ifs with h1 h2
    · rfl
    · have hsp : scoredPairs (generate_embedding none) (3 / 10) enriched = [] := by
        rw [scoredPairs, List.filterMap_eq_nil_iff]
        intro c hc
        rw [recordScore?]
        cases h : embOf? c with
        | none => rfl
        | some v =>
            have hz : simScore (generate_embedding none) v = ⟨0, 1⟩ :=
              simScore_zero_left _ v normSq_zeroVec
            dsimp only
            rw [hz, not_blt_zero_of_nonneg (3 / 10) (by norm_num)]
            simp
      rw [hsp]
      simp [sortDescKey]
    · rfl
  · intro h
    rw [semantic_search, semanticSearchWith]
    split_ifs with h1 h2
    · rfl
    · rw [h2] at h
      exact absurd h (by simp)
    · rfl

theorem C8_search_total_witness :
    dimsOk (generate_embedding (some [1, 0]))
      [[("companyName", Value.str "A")]] = false ∧
    semantic_search (some [1, 0]) [[("companyName", Value.str "A")]] 20 = [] :=
  ⟨by decide,
    (C8_search_total [[("companyName", Value.str "A")]] 20 (some [1, 0])).2.2 (by decide)⟩

/-- C9: search is read-only with respect to the processor state: the
state passed on equals the state received, a repeated call on the
resulting state returns the same answer, and similarity scores are
attached only to per-result copies of records from the collection. -/
theorem C9_search_readonly (st : ProcState) (qo : Option (List ℚ)) (top_k : ℕ) :
    (semantic_search_st st qo top_k).2 = st ∧
    semantic_search_st ((semantic_search_st st qo top_k).2) qo top_k =
      semantic_search_st st qo top_k ∧
    ∀ r ∈ (semantic_search_st st qo top_k).1,
      ∃ c sc, c ∈ st.enriched_companies ∧
        r = Dict.set c "similarity_score" (Value.score sc) := by
  refine ⟨rfl, rfl, ?_⟩
  intro r hr
  obtain ⟨⟨i, c, sc⟩, hp, rfl⟩ :=
    mem_semanticSearchWith (3 / 10) qo st.enriched_companies top_k r hr
  obtain ⟨hi, -⟩ := (mem_scoredIdx _ (3 / 10) st.enriched_companies i c sc).mp hp
  exact ⟨c, sc, List.getElem?_mem hi, rfl⟩
